import Mathlib

/-!
Shallow embedding of the `kujira-revenue-converter` contract
(`src/state.rs`, `src/contract.rs`, `src/msg.rs`).

Conventions of the embedding:
* `Uint128` values are `Nat`; where the source's u128 arithmetic can
  overflow or underflow (and hence panic / abort the transaction) the
  embedded function returns `Option`/`Except` with `none`/error for the
  aborting case.
* `Addr`, `Denom` and storage keys are `String` (cw-storage-plus `Map`
  iterates `String` keys in ascending lexicographic byte order; the
  embedding carries the ordered key list together with a
  `List.Pairwise (·.1 < ·.1)` sortedness invariant).
* `Binary` payloads are `List Nat` (opaque bytes).
* The contract's bank balances (`querier.query_balance(env.contract.address, d)`)
  are a function `String → Nat` from denom to held amount.
* `Decimal` is the cosmwasm 18-decimal fixed point: `Decimal::from_ratio(w, W)`
  has atomics `w * 10^18 / W` (integer floor division, panicking on zero
  divisor or on atomics ≥ 2^128), and `b.mul_floor(d)` is
  `b * atomics / 10^18`.
-/

namespace RevConv

/-- cosmwasm `Decimal::DECIMAL_FRACTIONAL = 10^18`. -/
def DECIMAL_FRACTIONAL : Nat := 10 ^ 18

/-- `Config` as used by `contract.rs` (owner, executor, swept denoms,
weighted recipient list). Weights are the nonnegative integers of the
spec's Distribution Target. -/
structure Config where
  owner : String
  executor : String
  target_denoms : List String
  target_addresses : List (String × Nat)
deriving DecidableEq

/-- `Action` from `state.rs`: denom, target contract, per-crank limit, payload. -/
structure Action where
  denom : String
  contract : String
  limit : Nat
  msg : List Nat
deriving DecidableEq

/-- A bank `Coin`: denom plus amount. -/
structure Coin where
  denom : String
  amount : Nat
deriving DecidableEq

/-- The `CosmosMsg` shapes the contract emits: `BankMsg::Send` (from
`Denom::send`) and `WasmMsg::Execute`. Coin lists are (amount, denom) pairs. -/
inductive CosmosMsgM
  | bankSend (toAddress : String) (amount : List (Nat × String))
  | wasmExecute (contractAddr : String) (msg : List Nat) (funds : List (Nat × String))
deriving DecidableEq

/-- An action ledger entry as stored: key = denom,
value = (contract, limit, msg) mirroring `ACTIONS: Map<String, (Addr, Uint128, Binary)>`. -/
abbrev Entry := String × String × Nat × List Nat

/-- Whole contract storage: `CONFIG`, `LAST` (the cursor) and `ACTIONS`
(kept as the ascending-key association list the `Map` iterates). -/
structure State where
  config : Config
  last : Option String
  actions : List Entry
deriving DecidableEq

/-- `ContractError`: `Unauthorized`, or a wrapped `StdError` /
arithmetic panic (both abort the transaction discarding all effects). -/
inductive ContractError
  | unauthorized
  | std (msg : String)
deriving DecidableEq

/-- `ExecuteMsg` from `msg.rs`. -/
inductive ExecuteMsgM
  | setOwner (owner : String)
  | setExecutor (executor : String)
  | setAction (action : Action)
  | unsetAction (denom : String)
  | run
deriving DecidableEq

/-- A cosmwasm `Response`: events (type, attributes), plain messages
(`add_messages`) and submessages (`add_submessage` with reply id). -/
structure ResponseM where
  events : List (String × List (String × String))
  messages : List CosmosMsgM
  submessages : List (Nat × CosmosMsgM)
deriving DecidableEq

/-- The empty `Response::default()`. -/
def ResponseM.default : ResponseM := ⟨[], [], []⟩

/-- Build an `Action` from a ledger entry, as `Action::load` does. -/
def Action.ofEntry (e : Entry) : Action :=
  ⟨e.1, e.2.1, e.2.2.1, e.2.2.2⟩

/-- The strict key order used by the storage `Map`'s ascending
iteration: lexicographic byte order on `String` keys. This is exactly
`String` `<` (certified by `keyLtb_iff` below); it is stated on the
underlying character list so that it evaluates by kernel reduction. -/
def keyLtb (a b : String) : Bool := decide (a.toList < b.toList)

/-- `Action::next` (`state.rs` lines 79-96): look for the first ledger
entry strictly after the cursor (or the first entry at all when no
cursor is stored); if the ranged scan finds nothing, fall back to the
first entry of the whole ledger; persist the found key as the new
cursor (`Action::load` saves `LAST`); on an empty ledger return `None`
leaving the cursor untouched. -/
def Action.next (st : State) : Option Action × State :=
  match (match st.last with
         | some k => st.actions.find? (fun e => keyLtb k e.1)
         | none => st.actions.head?) with
  | some e => (some (Action.ofEntry e), { st with last := some e.1 })
  | none =>
    match st.actions.head? with
    | some e => (some (Action.ofEntry e), { st with last := some e.1 })
    | none => (none, st)

/-- `Action::set`: keyed upsert into the ordered ledger (the `Map`'s
save keeps one value per key; iteration stays ascending). -/
def Action.set (k : String) (v : String × Nat × List Nat) :
    List Entry → List Entry
  | [] => [(k, v)]
  | e :: rest =>
    if k < e.1 then (k, v) :: e :: rest
    else if k = e.1 then (k, v) :: rest
    else e :: Action.set k v rest

/-- `Action::unset`: remove the entry with the given denom, if present. -/
def Action.unset (k : String) (l : List Entry) : List Entry :=
  l.filter (fun e => decide (e.1 ≠ k))

/-- `Action::execute` (`state.rs` lines 138-151): reject a balance coin
of the wrong denom, do nothing when `min(balance, limit)` is zero, and
otherwise emit one `WasmMsg::Execute` to the action's contract funded
with exactly `min(balance, limit)` of the denom. -/
def Action.execute (a : Action) (amount : Coin) : Except String (Option CosmosMsgM) :=
  if amount.denom ≠ a.denom then .error "Invalid Denom"
  else if min amount.amount a.limit = 0 then .ok none
  else .ok (some (.wasmExecute a.contract a.msg [(min amount.amount a.limit, amount.denom)]))

/-- The `total_weight` fold of `distribute_denom`
(`fold(0, |a, e| e.1 + a)` over the weighted address list). -/
def weightTotal (l : List (String × Nat)) : Nat :=
  l.foldl (fun a e => e.2 + a) 0

/-- `balance.mul_floor(Decimal::from_ratio(w, W))`:
floor(b · floor(w·10¹⁸/W) / 10¹⁸). -/
def mulFloorAmt (b w W : Nat) : Nat :=
  b * (w * DECIMAL_FRACTIONAL / W) / DECIMAL_FRACTIONAL

/-- The `while let` loop of `distribute_denom` (`contract.rs` lines
175-188). Arguments: `b` the (fixed) queried balance, `denom` the swept
denom, `W` the precomputed total weight, then the mutable `remaining`
and the remaining targets. For a non-last target the amount is
`b.mul_floor(Decimal::from_ratio(w, W))` — `none` models the panics of
`Decimal::from_ratio` (zero divisor, atomics overflowing `Uint128`) and
of `mul_floor` (result overflowing `Uint128`); the last target takes
`remaining`. Zero amounts are skipped (`continue`); otherwise
`remaining -= amount` (`none` models `Uint128` underflow panic) and a
`BankMsg::Send` of the amount is pushed. -/
def distGo (b : Nat) (denom : String) (W : Nat) :
    Nat → List (String × Nat) → Option (List CosmosMsgM)
  | _, [] => some []
  | remaining, (addr, w) :: rest =>
    match (if rest.isEmpty then some remaining
           else if W = 0 then none
           else if 2 ^ 128 ≤ w * DECIMAL_FRACTIONAL / W then none
           else if 2 ^ 128 ≤ mulFloorAmt b w W then none
           else some (mulFloorAmt b w W) : Option Nat) with
    | none => none
    | some amount =>
      if amount = 0 then distGo b denom W remaining rest
      else if amount ≤ remaining then
        (distGo b denom W (remaining - amount) rest).map
          (fun out => CosmosMsgM.bankSend addr [(amount, denom)] :: out)
      else none

/-- `distribute_denom` (`contract.rs` lines 159-191): query the
contract's balance of `denom`; when it is nonzero, split it over
`config.target_addresses` with the loop above and return the pushed
sends (in push order); a zero balance pushes nothing. -/
def distribute_denom (bal : String → Nat) (config : Config) (denom : String) :
    Option (List CosmosMsgM) :=
  if bal denom = 0 then some []
  else distGo (bal denom) denom (weightTotal config.target_addresses)
    (bal denom) config.target_addresses

/-- `get_action_msg` (`contract.rs` lines 112-126): fetch the next
action (cursor already persisted by `Action::next`), query the
contract's balance of its denom, and run `Action::execute` on it;
an inert action (`Ok(None)`) yields `none` with the advanced cursor kept. -/
def get_action_msg (st : State) (bal : String → Nat) :
    Except String (State × Option (Action × CosmosMsgM)) :=
  match Action.next st with
  | (some action, st1) =>
    match action.execute ⟨action.denom, bal action.denom⟩ with
    | .error e => .error e
    | .ok none => .ok (st1, none)
    | .ok (some m) => .ok (st1, some (action, m))
  | (none, st1) => .ok (st1, none)

/-- `execute` (`contract.rs` lines 42-110): the five entry points with
their owner/executor gates. `Run` either emits the selected action's
submessage (reply id 0, reply-always) plus a `revenue/run` event, or —
when no runnable action exists — sweeps every configured target denom
through `distribute_denom` in the same crank. An arithmetic panic
during the sweep aborts the transaction (modelled as `.std "panic"`). -/
def execute (st : State) (bal : String → Nat) (sender : String) (msg : ExecuteMsgM) :
    Except ContractError (State × ResponseM) :=
  match msg with
  | .setOwner owner =>
    if sender ≠ st.config.owner then .error .unauthorized
    else .ok ({ st with config := { st.config with owner := owner } }, ResponseM.default)
  | .setAction action =>
    if sender ≠ st.config.owner then .error .unauthorized
    else
      let acts := Action.set action.denom (action.contract, action.limit, action.msg) st.actions
      .ok ({ st with actions := acts }, ResponseM.default)
  | .unsetAction denom =>
    if sender ≠ st.config.owner then .error .unauthorized
    else .ok ({ st with actions := Action.unset denom st.actions }, ResponseM.default)
  | .setExecutor executor =>
    if sender ≠ st.config.owner then .error .unauthorized
    else .ok ({ st with config := { st.config with executor := executor } }, ResponseM.default)
  | .run =>
    if sender ≠ st.config.executor then .error .unauthorized
    else
      match get_action_msg st bal with
      | .error e => .error (.std e)
      | .ok (st1, some (action, m)) =>
        .ok (st1, { events := [("revenue/run", [("denom", action.denom)])],
                    messages := [], submessages := [(0, m)] })
      | .ok (st1, none) =>
        match st.config.target_denoms.foldlM
            (fun sends target => (distribute_denom bal st.config target).map (sends ++ ·)) [] with
        | none => .error (.std "panic")
        | some sends => .ok (st1, { events := [], messages := sends, submessages := [] })

/-- `execute_reply` (`contract.rs` lines 133-141), the always-fire
completion callback: reload the config and run the same
`distribute_denom` sweep over every configured target denom against the
current balances. It takes the storage read-only (`Deps`, not `DepsMut`). -/
def execute_reply (st : State) (bal : String → Nat) : Except ContractError ResponseM :=
  match st.config.target_denoms.foldlM
      (fun sends target => (distribute_denom bal st.config target).map (sends ++ ·)) [] with
  | none => .error (.std "panic")
  | some sends => .ok { events := [], messages := sends, submessages := [] }

/-- Iterate bare `Action::next` calls `n` times (the fixed-ledger crank
sequence of the round-robin fairness property), collecting the selected
denoms in order. -/
def runCranks (st : State) : Nat → State × List String
  | 0 => (st, [])
  | n + 1 =>
    ((runCranks (Action.next st).2 n).1,
     ((Action.next st).1.map Action.denom).toList ++ (runCranks (Action.next st).2 n).2)

/-- Amount carried by one emitted message (sum of its coin amounts). -/
def msgAmt : CosmosMsgM → Nat
  | .bankSend _ cs => (cs.map (·.1)).sum
  | .wasmExecute _ _ fs => (fs.map (·.1)).sum

/-- Total amount carried by a list of messages. -/
def sendsTotal (l : List CosmosMsgM) : Nat := (l.map msgAmt).sum

/-- The `BankMsg::Send` built by `denom.send(&addr, &amount)`. -/
def sendOf (denom : String) (p : String × Nat) : CosmosMsgM :=
  .bankSend p.1 [(p.2, denom)]

/-- Concrete balances for the C2 counterexample: 3 units of denom "x". -/
def c2Bal : String → Nat := fun d => if d = "x" then 3 else 0

/-- Concrete config for the C2 counterexample: three targets of weight 1. -/
def c2Cfg : Config := ⟨"o", "e", ["x"], [("a", 1), ("b", 1), ("c", 1)]⟩

/-- The four owner-gated entry points (`SetOwner`, `SetExecutor`,
`SetAction`, `UnsetAction`). -/
def ownerGated : ExecuteMsgM → Prop
  | .setOwner _ => True
  | .setExecutor _ => True
  | .setAction _ => True
  | .unsetAction _ => True
  | .run => False

/-- Concrete two-entry sorted ledger with cursor at "a" for the C3 witness. -/
def c3st : State :=
  ⟨⟨"o", "e", [], []⟩, some "a", [("a", ("ca", 5, [])), ("c", ("cc", 7, []))]⟩

/-- `Uint128::MAX`, the "unbounded" limit. -/
def UMAX : Nat := 2 ^ 128 - 1

/-- Balances of the cranking scenario: A holds 0; B, C, D, E hold 1000. -/
def c6Bal : String → Nat := fun d =>
  if d = "token-b" then 1000
  else if d = "token-c" then 1000
  else if d = "token-d" then 1000
  else if d = "token-e" then 1000
  else 0

/-- Config of the cranking scenario (sweep denoms hold zero balance). -/
def c6Cfg : Config := ⟨"owner", "executor", ["ukuji", "another"], [("fee", 1)]⟩

/-- The five-action ledger of the repository's `cranking` test:
A, B, D, E unbounded, C capped at 100. -/
def c6Acts5 : List Entry :=
  [("token-a", ("contract-a", UMAX, [])), ("token-b", ("contract-b", UMAX, [])),
   ("token-c", ("contract-c", 100, [])), ("token-d", ("contract-d", UMAX, [])),
   ("token-e", ("contract-e", UMAX, []))]

/-- The three-action ledger {A:∞, B:∞, C:100} exactly as claim C6 words it. -/
def c6Acts3 : List Entry :=
  [("token-a", ("contract-a", UMAX, [])), ("token-b", ("contract-b", UMAX, [])),
   ("token-c", ("contract-c", 100, []))]

/-- One crank: the executor calls `Run` against the scenario balances. -/
def c6crank (st : State) : Except ContractError (State × ResponseM) :=
  execute st c6Bal "executor" .run

lemma foldl_add_weight (l : List (String × Nat)) :
    ∀ a : Nat, l.foldl (fun acc e => e.2 + acc) a = (l.map (·.2)).sum + a := by
  induction l with
  | nil => intro a; simp
  | cons e tl ih =>
    intro a
    simp only [List.foldl_cons, List.map_cons, List.sum_cons, ih]
    omega

lemma weightTotal_eq_sum (l : List (String × Nat)) :
    weightTotal l = (l.map (·.2)).sum := by
  simpa using foldl_add_weight l 0

lemma DECIMAL_FRACTIONAL_pos : 0 < DECIMAL_FRACTIONAL := by
  norm_num [DECIMAL_FRACTIONAL]

lemma DECIMAL_FRACTIONAL_lt : DECIMAL_FRACTIONAL < 2 ^ 128 := by
  norm_num [DECIMAL_FRACTIONAL]

lemma atomics_le {w W : Nat} (hw : w ≤ W) (hW : 0 < W) :
    w * DECIMAL_FRACTIONAL / W ≤ DECIMAL_FRACTIONAL := by
  calc w * DECIMAL_FRACTIONAL / W ≤ W * DECIMAL_FRACTIONAL / W :=
        Nat.div_le_div_right (Nat.mul_le_mul_right _ hw)
    _ = DECIMAL_FRACTIONAL := Nat.mul_div_cancel_left _ hW

lemma mulFloorAmt_le_balance {b w W : Nat} (hw : w ≤ W) (hW : 0 < W) :
    mulFloorAmt b w W ≤ b := by
  unfold mulFloorAmt
  calc b * (w * DECIMAL_FRACTIONAL / W) / DECIMAL_FRACTIONAL
      ≤ b * DECIMAL_FRACTIONAL / DECIMAL_FRACTIONAL :=
        Nat.div_le_div_right (Nat.mul_le_mul_left _ (atomics_le hw hW))
    _ = b := Nat.mul_div_cancel _ DECIMAL_FRACTIONAL_pos

lemma mulFloorAmt_mul_le (b w W : Nat) : mulFloorAmt b w W * W ≤ b * w := by
  have h1 : (w * DECIMAL_FRACTIONAL / W) * W ≤ w * DECIMAL_FRACTIONAL :=
    Nat.div_mul_le_self _ _
  have h2 : mulFloorAmt b w W * DECIMAL_FRACTIONAL ≤ b * (w * DECIMAL_FRACTIONAL / W) :=
    Nat.div_mul_le_self _ _
  have h3 : mulFloorAmt b w W * W * DECIMAL_FRACTIONAL ≤ b * w * DECIMAL_FRACTIONAL := by
    calc mulFloorAmt b w W * W * DECIMAL_FRACTIONAL
        = mulFloorAmt b w W * DECIMAL_FRACTIONAL * W := by ring
      _ ≤ b * (w * DECIMAL_FRACTIONAL / W) * W := Nat.mul_le_mul_right _ h2
      _ = b * ((w * DECIMAL_FRACTIONAL / W) * W) := by ring
      _ ≤ b * (w * DECIMAL_FRACTIONAL) := Nat.mul_le_mul_left _ h1
      _ = b * w * DECIMAL_FRACTIONAL := by ring
  exact Nat.le_of_mul_le_mul_right h3 DECIMAL_FRACTIONAL_pos

lemma sum_mulFloorAmt_mul_le (b W : Nat) (ts : List (String × Nat)) :
    (ts.map (fun e => mulFloorAmt b e.2 W)).sum * W ≤ b * ((ts.map (·.2)).sum) := by
  induction ts with
  | nil => simp
  | cons e tl ih =>
    simp only [List.map_cons, List.sum_cons, Nat.add_mul, Nat.mul_add]
    exact Nat.add_le_add (mulFloorAmt_mul_le b e.2 W) ih

lemma distGo_nil (b : Nat) (denom : String) (W r : Nat) :
    distGo b denom W r [] = some [] := rfl

lemma distGo_last (b : Nat) (denom : String) (W r : Nat) (addr : String) (w : Nat) :
    distGo b denom W r [(addr, w)] =
      if r = 0 then some [] else some [CosmosMsgM.bankSend addr [(r, denom)]] := by
  by_cases hr : r = 0 <;> simp [distGo, hr]

lemma distGo_cons (b : Nat) (denom : String) (W r : Nat) (addr : String) (w : Nat)
    (y : String × Nat) (ys : List (String × Nat)) (hW : W ≠ 0)
    (h1 : w * DECIMAL_FRACTIONAL / W < 2 ^ 128) (h2 : mulFloorAmt b w W < 2 ^ 128) :
    distGo b denom W r ((addr, w) :: y :: ys) =
      if mulFloorAmt b w W = 0 then distGo b denom W r (y :: ys)
      else if mulFloorAmt b w W ≤ r then
        (distGo b denom W (r - mulFloorAmt b w W) (y :: ys)).map
          (fun out => CosmosMsgM.bankSend addr [(mulFloorAmt b w W, denom)] :: out)
      else none := by
  conv_lhs => rw [distGo]
  rw [if_neg (by simp : ¬((y :: ys).isEmpty = true)), if_neg hW,
    if_neg (Nat.not_le.mpr h1), if_neg (Nat.not_le.mpr h2)]

lemma sendsTotal_append (l1 l2 : List CosmosMsgM) :
    sendsTotal (l1 ++ l2) = sendsTotal l1 + sendsTotal l2 := by
  simp [sendsTotal]

lemma sendsTotal_sendOf_map (denom : String) (ps : List (String × Nat)) :
    sendsTotal (ps.map (sendOf denom)) = (ps.map (·.2)).sum := by
  induction ps with
  | nil => rfl
  | cons p tl ih => simp [sendsTotal, sendOf, msgAmt, List.map_cons, List.sum_cons] at ih ⊢; omega

lemma sum_filter_ne_zero (ps : List (String × Nat)) :
    (((ps.filter (fun p => decide (p.2 ≠ 0))).map (·.2)).sum) = ((ps.map (·.2)).sum) := by
  induction ps with
  | nil => rfl
  | cons p tl ih =>
    simp only [decide_not] at ih ⊢
    by_cases hz : p.2 = 0 <;> simp [List.filter_cons, hz, ih]

/-- Full characterisation of the distribution loop: every non-last
target contributes its `mul_floor` share (zero shares skipped), and the
last target takes all of `remaining`, also skipped when zero. -/
lemma distGo_spec (b : Nat) (denom : String) (W : Nat) (hW : 0 < W) (hb : b < 2 ^ 128) :
    ∀ (ts : List (String × Nat)) (r : Nat) (hne : ts ≠ []),
      (∀ e ∈ ts, e.2 ≤ W) →
      b * ((ts.dropLast.map (·.2)).sum) ≤ r * W →
      distGo b denom W r ts =
        some ((((ts.dropLast.map (fun e => (e.1, mulFloorAmt b e.2 W))).filter
                  (fun p => decide (p.2 ≠ 0))).map (sendOf denom))
              ++ (if r - ((ts.dropLast.map (fun e => mulFloorAmt b e.2 W)).sum) = 0 then []
                  else [sendOf denom ((ts.getLast hne).1,
                         r - ((ts.dropLast.map (fun e => mulFloorAmt b e.2 W)).sum))])) := by
  intro ts
  induction ts with
  | nil => intro r hne; exact absurd rfl hne
  | cons hd tl ih =>
    intro r hne hwts hrem
    obtain ⟨addr, w⟩ := hd
    match tl, ih with
    | [], _ =>
      simp only [List.dropLast_single, List.map_nil, List.sum_nil, Nat.sub_zero,
        List.filter_nil, List.getLast_singleton, List.nil_append, distGo_last]
      by_cases hr : r = 0 <;> simp [hr, sendOf]
    | y :: ys, ih =>
      have hw : w ≤ W := hwts (addr, w) (List.mem_cons_self _ _)
      have hwts2 : ∀ e ∈ y :: ys, e.2 ≤ W := fun e he => hwts e (List.mem_cons_of_mem _ he)
      have ha : w * DECIMAL_FRACTIONAL / W < 2 ^ 128 :=
        lt_of_le_of_lt (atomics_le hw hW) DECIMAL_FRACTIONAL_lt
      have hamtb : mulFloorAmt b w W ≤ b := mulFloorAmt_le_balance hw hW
      have hamt128 : mulFloorAmt b w W < 2 ^ 128 := lt_of_le_of_lt hamtb hb
      rw [distGo_cons b denom W r addr w y ys (Nat.pos_iff_ne_zero.mp hW) ha hamt128]
      have hdrop : ((addr, w) :: y :: ys).dropLast = (addr, w) :: ((y :: ys).dropLast) :=
        List.dropLast_cons₂ ..
      have hrem1 : b * (w + (((y :: ys).dropLast.map (·.2)).sum)) ≤ r * W := by
        simpa [hdrop] using hrem
      have hamtr : mulFloorAmt b w W ≤ r := by
        have h1 : mulFloorAmt b w W * W ≤ r * W :=
          le_trans (mulFloorAmt_mul_le b w W)
            (le_trans (Nat.mul_le_mul_left b (Nat.le_add_right w _)) hrem1)
        exact Nat.le_of_mul_le_mul_right h1 hW
      by_cases hz : mulFloorAmt b w W = 0
      · rw [if_pos hz]
        have hrem2 : b * (((y :: ys).dropLast.map (·.2)).sum) ≤ r * W :=
          le_trans (Nat.mul_le_mul_left b (Nat.le_add_left _ w)) hrem1
        rw [ih r (by simp) hwts2 hrem2]
        simp [hdrop, List.filter_cons, hz, List.getLast_cons]
      · rw [if_neg hz, if_pos hamtr]
        have hrem2 : b * (((y :: ys).dropLast.map (·.2)).sum) ≤ (r - mulFloorAmt b w W) * W := by
          rw [Nat.sub_mul]
          apply Nat.le_sub_of_add_le
          calc b * (((y :: ys).dropLast.map (·.2)).sum) + mulFloorAmt b w W * W
              ≤ b * (((y :: ys).dropLast.map (·.2)).sum) + b * w :=
                Nat.add_le_add_left (mulFloorAmt_mul_le b w W) _
            _ = b * (w + (((y :: ys).dropLast.map (·.2)).sum)) := by ring
            _ ≤ r * W := hrem1
        rw [ih (r - mulFloorAmt b w W) (by simp) hwts2 hrem2]
        simp only [Option.map_some, hdrop, List.map_cons, List.filter_cons, hz,
          decide_not, List.sum_cons, List.getLast_cons, decide_True, Bool.not_false,
          List.cons_append, Nat.sub_sub]
        simp [sendOf]

lemma targets_sum_split (l : List (String × Nat)) (hne : l ≠ []) :
    (l.map (·.2)).sum = (l.dropLast.map (·.2)).sum + (l.getLast hne).2 := by
  conv_lhs => rw [← List.dropLast_append_getLast hne]
  simp

lemma targets_weight_le (l : List (String × Nat)) {e : String × Nat} (he : e ∈ l) :
    e.2 ≤ weightTotal l := by
  rw [weightTotal_eq_sum]
  exact List.single_le_sum (fun _ _ => Nat.zero_le _) _ (List.mem_map_of_mem _ he)

lemma sum_mulFloorAmt_le_balance (b W : Nat) (hW : 0 < W) (ts : List (String × Nat))
    (hts : (ts.map (·.2)).sum ≤ W) :
    (ts.map (fun e => mulFloorAmt b e.2 W)).sum ≤ b := by
  have h1 : (ts.map (fun e => mulFloorAmt b e.2 W)).sum * W ≤ b * W :=
    le_trans (sum_mulFloorAmt_mul_le b W ts) (Nat.mul_le_mul_left _ hts)
  exact Nat.le_of_mul_le_mul_right h1 hW

/-- Claim C1: for every non-zero balance (a `Uint128`, hence `< 2^128`)
and non-empty target list with positive total weight, `distribute_denom`
succeeds and the amounts of the emitted transfers sum exactly to the
balance. -/
theorem c1_distribute_conserves (bal : String → Nat) (config : Config) (denom : String)
    (hb0 : bal denom ≠ 0) (hb : bal denom < 2 ^ 128)
    (hne : config.target_addresses ≠ [])
    (hW : 0 < weightTotal config.target_addresses) :
    ∃ sends, distribute_denom bal config denom = some sends ∧
      sendsTotal sends = bal denom := by
  set b := bal denom with hbdef
  set l := config.target_addresses with hldef
  set W := weightTotal config.target_addresses with hWdef
  have hWs : W = (l.map (·.2)).sum := weightTotal_eq_sum l
  have hdle : (l.dropLast.map (·.2)).sum ≤ W := by
    rw [hWs, targets_sum_split l hne]; omega
  have hwts : ∀ e ∈ l, e.2 ≤ W := fun e he => targets_weight_le l he
  have hrem : b * ((l.dropLast.map (·.2)).sum) ≤ b * W := Nat.mul_le_mul_left _ hdle
  unfold distribute_denom
  rw [if_neg hb0, distGo_spec b denom W hW hb l b hne hwts hrem]
  refine ⟨_, rfl, ?_⟩
  have hSle : (l.dropLast.map (fun e => mulFloorAmt b e.2 W)).sum ≤ b :=
    sum_mulFloorAmt_le_balance b W hW l.dropLast hdle
  rw [sendsTotal_append, sendsTotal_sendOf_map]
  have hfilter := sum_filter_ne_zero (l.dropLast.map (fun e => (e.1, mulFloorAmt b e.2 W)))
  rw [hfilter]
  rw [List.map_map]
  by_cases hz : b - (l.dropLast.map (fun e => mulFloorAmt b e.2 W)).sum = 0
  · rw [if_pos hz]
    simp only [sendsTotal, List.map_nil, List.sum_nil]
    have : (l.dropLast.map ((·.2) ∘ fun e => (e.1, mulFloorAmt b e.2 W))).sum
        = (l.dropLast.map (fun e => mulFloorAmt b e.2 W)).sum := by
      congr 1
    omega
  · rw [if_neg hz]
    simp only [sendsTotal, sendOf, msgAmt, List.map_cons, List.map_nil, List.sum_cons,
      List.sum_nil]
    have : (l.dropLast.map ((·.2) ∘ fun e => (e.1, mulFloorAmt b e.2 W))).sum
        = (l.dropLast.map (fun e => mulFloorAmt b e.2 W)).sum := by
      congr 1
    omega

/-- Claim C1 witness: the spec's own scenario — balance 1000 of a denom,
targets weighted 1 and 3 — distributes a total of exactly 1000. -/
theorem c1_distribute_conserves_witness :
    ∃ sends,
      distribute_denom (fun d => if d = "x" then 1000 else 0)
        ⟨"o", "e", ["x"], [("fee", 1), ("another", 3)]⟩ "x" = some sends ∧
      sendsTotal sends = (fun d => if d = "x" then 1000 else 0) "x" :=
  c1_distribute_conserves (fun d => if d = "x" then 1000 else 0)
    ⟨"o", "e", ["x"], [("fee", 1), ("another", 3)]⟩ "x"
    (by decide) (by decide) (by decide) (by decide)

/-- Claim C2 counterexample: with balance 3 and targets a, b, c of weight
1 each (total weight 3), the claim's exact rational arithmetic gives the
non-last target "a" the amount `floor(3·1/3) = 1`; the code instead
computes `3.mul_floor(Decimal::from_ratio(1, 3))`, whose 18-decimal
fixed point truncates to 0, so "a" (and "b") receive nothing and the
whole balance lands on the last target "c". -/
theorem c2_counterexample :
    distribute_denom c2Bal c2Cfg "x" = some [CosmosMsgM.bankSend "c" [(3, "x")]] ∧
    3 * 1 / 3 = 1 := by
  constructor
  · rfl
  · rfl

/-- Claim C2 (amended): for every non-zero `Uint128` balance and target
list of at least two entries with positive total weight, every target
except the last is assigned `balance.mul_floor(Decimal::from_ratio(weight,
total_weight))` — i.e. `floor(balance · floor(weight·10¹⁸/total) / 10¹⁸)`,
which never exceeds (but can fall below) the exact `floor(balance ·
weight / total)` — with zero amounts skipped; the last target in
configured order is assigned the remainder `balance - sum of the other
targets' computed amounts` (also skipped when zero), and that remainder
is never less than the last target's exact floor share. -/
theorem c2_amended (bal : String → Nat) (config : Config) (denom : String)
    (lastT : String × Nat)
    (hb0 : bal denom ≠ 0) (hb : bal denom < 2 ^ 128)
    (hlen : 2 ≤ config.target_addresses.length)
    (hW : 0 < weightTotal config.target_addresses)
    (hlast : config.target_addresses.getLast? = some lastT) :
    ∃ sends lastAmt,
      distribute_denom bal config denom = some sends ∧
      sends = (((config.target_addresses.dropLast.map
                  (fun e => (e.1, mulFloorAmt (bal denom) e.2
                    (weightTotal config.target_addresses)))).filter
                 (fun p => decide (p.2 ≠ 0))).map (sendOf denom))
              ++ (if lastAmt = 0 then [] else [sendOf denom (lastT.1, lastAmt)]) ∧
      lastAmt = bal denom
        - ((config.target_addresses.dropLast.map
             (fun e => mulFloorAmt (bal denom) e.2
               (weightTotal config.target_addresses))).sum) ∧
      (∀ e ∈ config.target_addresses.dropLast,
        mulFloorAmt (bal denom) e.2 (weightTotal config.target_addresses)
          ≤ bal denom * e.2 / weightTotal config.target_addresses) ∧
      bal denom * lastT.2 / weightTotal config.target_addresses ≤ lastAmt := by
  set b := bal denom with hbdef
  set l := config.target_addresses with hldef
  set W := weightTotal config.target_addresses with hWdef
  have hne : l ≠ [] := by
    intro h; rw [h] at hlen; simp at hlen
  have hlastT : lastT = l.getLast hne := by
    rw [List.getLast?_eq_getLast l hne] at hlast
    exact (Option.some_injective _ hlast).symm
  have hWs : W = (l.map (·.2)).sum := weightTotal_eq_sum l
  have hsplit : (l.map (·.2)).sum = (l.dropLast.map (·.2)).sum + (l.getLast hne).2 :=
    targets_sum_split l hne
  have hdle : (l.dropLast.map (·.2)).sum ≤ W := by rw [hWs, hsplit]; omega
  have hwts : ∀ e ∈ l, e.2 ≤ W := fun e he => targets_weight_le l he
  have hrem : b * ((l.dropLast.map (·.2)).sum) ≤ b * W := Nat.mul_le_mul_left _ hdle
  set S := (l.dropLast.map (fun e => mulFloorAmt b e.2 W)).sum with hSdef
  have hSW : S * W ≤ b * ((l.dropLast.map (·.2)).sum) := sum_mulFloorAmt_mul_le b W l.dropLast
  have hSle : S ≤ b := sum_mulFloorAmt_le_balance b W hW l.dropLast hdle
  have hmain : distribute_denom bal config denom =
      some ((((l.dropLast.map (fun e => (e.1, mulFloorAmt b e.2 W))).filter
                (fun p => decide (p.2 ≠ 0))).map (sendOf denom))
            ++ (if b - S = 0 then [] else [sendOf denom ((l.getLast hne).1, b - S)])) := by
    unfold distribute_denom
    rw [if_neg hb0, distGo_spec b denom W hW hb l b hne hwts hrem]
  refine ⟨_, b - S, hmain, ?_, rfl, ?_, ?_⟩
  · rw [hlastT]
  · intro e he
    rw [Nat.le_div_iff_mul_le hW]
    exact mulFloorAmt_mul_le b e.2 W
  · have h2 : b * lastT.2 + S * W ≤ b * W := by
      calc b * lastT.2 + S * W
          ≤ b * lastT.2 + b * ((l.dropLast.map (·.2)).sum) := Nat.add_le_add_left hSW _
        _ = b * (((l.dropLast.map (·.2)).sum) + lastT.2) := by ring
        _ = b * W := by rw [hWs, hsplit, hlastT]
    have h3 : b * lastT.2 ≤ (b - S) * W := by
      rw [Nat.sub_mul]
      exact Nat.le_sub_of_add_le h2
    calc b * lastT.2 / W ≤ (b - S) * W / W := Nat.div_le_div_right h3
      _ = b - S := Nat.mul_div_cancel _ hW

/-- Claim C2 (amended) witness: balance 1000, targets weighted 1 then 3
(total 4): the non-last target gets `mul_floor` share 250, the last gets
the remainder 750 ≥ its floor share 750. -/
theorem c2_amended_witness :
    ∃ sends lastAmt,
      distribute_denom (fun d => if d = "x" then 1000 else 0)
        ⟨"o", "e", ["x"], [("fee", 1), ("another", 3)]⟩ "x" = some sends ∧
      sends = ((([(("fee", 1) : String × Nat)].map
                  (fun e => (e.1, mulFloorAmt 1000 e.2 4))).filter
                 (fun p => decide (p.2 ≠ 0))).map (sendOf "x"))
              ++ (if lastAmt = 0 then [] else [sendOf "x" ("another", lastAmt)]) ∧
      lastAmt = 1000 - (([(("fee", 1) : String × Nat)].map
        (fun e => mulFloorAmt 1000 e.2 4)).sum) ∧
      (∀ e ∈ [(("fee", 1) : String × Nat)], mulFloorAmt 1000 e.2 4 ≤ 1000 * e.2 / 4) ∧
      1000 * 3 / 4 ≤ lastAmt := by
  have h := c2_amended (fun d => if d = "x" then 1000 else 0)
    ⟨"o", "e", ["x"], [("fee", 1), ("another", 3)]⟩ "x" ("another", 3)
    (by decide) (by decide) (by decide) (by decide) (by decide)
  simpa [weightTotal, List.dropLast] using h

/-- Claim C10: with exactly one configured target, a non-zero balance is
sent whole to that target in a single transfer, whatever the weight
(weight 0 included) — the returned value is `some`, i.e. the division by
`total_weight` (whose panic is modelled as `none`) is never reached. -/
theorem c10_single_target (bal : String → Nat) (config : Config) (denom addr : String)
    (w : Nat) (hsingle : config.target_addresses = [(addr, w)]) (hb0 : bal denom ≠ 0) :
    distribute_denom bal config denom =
      some [CosmosMsgM.bankSend addr [(bal denom, denom)]] := by
  unfold distribute_denom
  rw [hsingle, if_neg hb0, distGo_last, if_neg hb0]

/-- Claim C10 witness: one target of weight 0 (total weight 0) still
receives the whole balance of 7, with no division panic. -/
theorem c10_single_target_witness :
    distribute_denom (fun d => if d = "x" then 7 else 0)
      ⟨"o", "e", ["x"], [("a", 0)]⟩ "x" =
      some [CosmosMsgM.bankSend "a" [(7, "x")]] :=
  c10_single_target (fun d => if d = "x" then 7 else 0)
    ⟨"o", "e", ["x"], [("a", 0)]⟩ "x" "a" 0 rfl (by decide)

/-- Claim C5: on a balance coin of the Action's own denom,
`Action::execute` returns no operation exactly when `min(balance, limit)`
is zero, and otherwise exactly one `WasmMsg::Execute` to the Action's
contract funded with `min(balance, limit)`, which never exceeds `limit`. -/
theorem c5_limit_capping (a : Action) (c : Coin) (hd : c.denom = a.denom) :
    (min c.amount a.limit = 0 → a.execute c = .ok none) ∧
    (min c.amount a.limit ≠ 0 →
      a.execute c =
        .ok (some (.wasmExecute a.contract a.msg [(min c.amount a.limit, c.denom)])) ∧
      min c.amount a.limit ≤ a.limit) := by
  unfold Action.execute
  rw [if_neg (by simp [hd])]
  constructor
  · intro h; rw [if_pos h]
  · intro h; exact ⟨by rw [if_neg h], Nat.min_le_right _ _⟩

/-- Claim C5 witness: limit 100 caps a balance of 250 to an operation
funded with 100. -/
theorem c5_limit_capping_witness :
    Action.execute ⟨"d", "c", 100, []⟩ ⟨"d", 250⟩ =
      .ok (some (.wasmExecute "c" [] [(min 250 100, "d")])) ∧
    min 250 100 ≤ 100 :=
  (c5_limit_capping ⟨"d", "c", 100, []⟩ ⟨"d", 250⟩ rfl).2 (by decide)

/-- Claim C8: `Action::execute` fails with the "Invalid Denom" error if
and only if the supplied coin's denom differs from the Action's denom. -/
theorem c8_invalid_denom_iff (a : Action) (c : Coin) :
    a.execute c = .error "Invalid Denom" ↔ c.denom ≠ a.denom := by
  unfold Action.execute
  by_cases h : c.denom = a.denom
  · by_cases hm : min c.amount a.limit = 0 <;> simp [h, hm]
  · simp [h]

/-- Claim C7: an owner-gated message from a non-owner, or `Run` from a
non-executor, is rejected with `Unauthorized`; the call returns no new
state (in CosmWasm an error aborts the transaction, discarding every
storage write). -/
theorem c7_unauthorized (st : State) (bal : String → Nat) (sender : String)
    (msg : ExecuteMsgM)
    (h : (ownerGated msg ∧ sender ≠ st.config.owner) ∨
         (msg = .run ∧ sender ≠ st.config.executor)) :
    execute st bal sender msg = .error .unauthorized := by
  cases msg <;>
    rcases h with ⟨hg, hs⟩ | ⟨hm, hs⟩ <;>
    simp_all [execute, ownerGated]

/-- Claim C7 witness: a stranger calling `SetOwner` is rejected. -/
theorem c7_unauthorized_witness :
    execute ⟨⟨"owner", "executor", [], []⟩, none, []⟩ (fun _ => 0) "mallory"
      (.setOwner "mallory") = .error .unauthorized :=
  c7_unauthorized ⟨⟨"owner", "executor", [], []⟩, none, []⟩ (fun _ => 0) "mallory"
    (.setOwner "mallory") (Or.inl ⟨trivial, by decide⟩)

/-- Claim C9: the completion callback (`reply` → `execute_reply`) is
exactly the sweep branch of `Run`: it ignores the cursor and the action
ledger entirely (so it selects and re-attempts no Action, and — taking
the storage read-only — leaves cursor and ledger unchanged), and
whenever `Run` reaches its sweep branch the response it produces is the
very response of `execute_reply` on the same state and balances. -/
theorem c9_reply_is_sweep (st : State) (bal : String → Nat) (sender : String) :
    (∀ last1 acts1,
      execute_reply { st with last := last1, actions := acts1 } bal =
        execute_reply st bal) ∧
    (sender = st.config.executor →
      ∀ st1, get_action_msg st bal = .ok (st1, none) →
        execute st bal sender .run = (execute_reply st bal).map (fun r => (st1, r))) := by
  constructor
  · intro last1 acts1; rfl
  · intro hs st1 hget
    unfold execute
    rw [if_neg (by simp [hs]), hget]
    unfold execute_reply
    rcases hfold : st.config.target_denoms.foldlM
        (fun sends target => (distribute_denom bal st.config target).map (sends ++ ·)) [] with
      _ | sends <;> rfl

/-- Claim C9 witness: on an empty ledger the `Run` sweep equals the
reply handler's sweep. -/
theorem c9_reply_is_sweep_witness :
    execute ⟨⟨"o", "e", ["x"], [("a", 1)]⟩, none, []⟩ (fun _ => 0) "e" .run =
      (execute_reply ⟨⟨"o", "e", ["x"], [("a", 1)]⟩, none, []⟩ (fun _ => 0)).map
        (fun r => (⟨⟨"o", "e", ["x"], [("a", 1)]⟩, none, []⟩, r)) :=
  (c9_reply_is_sweep ⟨⟨"o", "e", ["x"], [("a", 1)]⟩, none, []⟩ (fun _ => 0) "e").2 rfl
    ⟨⟨"o", "e", ["x"], [("a", 1)]⟩, none, []⟩ rfl

lemma keyLtb_iff {a b : String} : keyLtb a b = true ↔ a < b := by
  simp [keyLtb, String.lt_iff_toList_lt]

lemma Action.next_some_cursor (cfg : Config) (k : String) (acts : List Entry) :
    Action.next ⟨cfg, some k, acts⟩ =
      match acts.find? (fun e => keyLtb k e.1) with
      | some e => (some (Action.ofEntry e), ⟨cfg, some e.1, acts⟩)
      | none =>
        match acts.head? with
        | some e => (some (Action.ofEntry e), ⟨cfg, some e.1, acts⟩)
        | none => (none, ⟨cfg, some k, acts⟩) := rfl

lemma Action.next_none_cursor (cfg : Config) (acts : List Entry) :
    Action.next ⟨cfg, none, acts⟩ =
      match acts.head? with
      | some e => (some (Action.ofEntry e), ⟨cfg, some e.1, acts⟩)
      | none =>
        match acts.head? with
        | some e => (some (Action.ofEntry e), ⟨cfg, some e.1, acts⟩)
        | none => (none, ⟨cfg, none, acts⟩) := rfl

lemma find_gt_min {l : List Entry} (hs : l.Pairwise (fun a b => a.1 < b.1)) {k : String}
    {e : Entry} (hf : l.find? (fun x => keyLtb k x.1) = some e) :
    e ∈ l ∧ k < e.1 ∧ ∀ x ∈ l, k < x.1 → e.1 ≤ x.1 := by
  induction l with
  | nil => simp at hf
  | cons a tl ih =>
    rw [List.pairwise_cons] at hs
    by_cases hk : k < a.1
    · rw [@List.find?_cons_of_pos _ (fun x => keyLtb k x.1) a tl (keyLtb_iff.mpr hk)] at hf
      obtain rfl : a = e := by injection hf
      refine ⟨List.mem_cons_self _ _, hk, ?_⟩
      intro x hx _
      rcases List.mem_cons.mp hx with rfl | hx
      · exact le_refl _
      · exact le_of_lt (hs.1 x hx)
    · rw [@List.find?_cons_of_neg _ (fun x => keyLtb k x.1) a tl
        (by rw [keyLtb_iff]; exact hk)] at hf
      obtain ⟨hmem, hke, hmin⟩ := ih hs.2 hf
      refine ⟨List.mem_cons_of_mem _ hmem, hke, ?_⟩
      intro x hx hkx
      rcases List.mem_cons.mp hx with rfl | hx
      · exact absurd hkx hk
      · exact hmin x hx hkx

lemma head_min {l : List Entry} (hs : l.Pairwise (fun a b => a.1 < b.1)) {e : Entry}
    (hh : l.head? = some e) : ∀ x ∈ l, e.1 ≤ x.1 := by
  cases l with
  | nil => simp at hh
  | cons a tl =>
    obtain rfl : a = e := by injection hh
    rw [List.pairwise_cons] at hs
    intro x hx
    rcases List.mem_cons.mp hx with rfl | hx
    · exact le_refl _
    · exact le_of_lt (hs.1 x hx)

/-- Claim C3: with a sorted ledger, `Action::next` (1) from a cursor `k`
with some key beyond it selects the smallest ledger key strictly greater
than `k`, persisting it as the new cursor and returning that entry's
Action; (2) with no cursor, or a cursor at or past the last key, selects
the smallest key of the whole ledger (when non-empty), again persisting
it; (3) on an empty ledger returns nothing and leaves the cursor
unchanged. -/
theorem c3_next_selection (st : State)
    (hs : st.actions.Pairwise (fun a b => a.1 < b.1)) :
    (∀ k, st.last = some k → (∃ e ∈ st.actions, k < e.1) →
      ∃ e, e ∈ st.actions ∧ k < e.1 ∧ (∀ x ∈ st.actions, k < x.1 → e.1 ≤ x.1) ∧
        Action.next st = (some (Action.ofEntry e), { st with last := some e.1 })) ∧
    ((st.last = none ∨ ∃ k, st.last = some k ∧ ∀ x ∈ st.actions, x.1 ≤ k) →
      st.actions ≠ [] →
      ∃ e, e ∈ st.actions ∧ (∀ x ∈ st.actions, e.1 ≤ x.1) ∧
        Action.next st = (some (Action.ofEntry e), { st with last := some e.1 })) ∧
    (st.actions = [] → Action.next st = (none, st)) := by
  obtain ⟨cfg, last0, acts⟩ := st
  refine ⟨?_, ?_, ?_⟩
  · intro k hlast hex
    simp only at hlast hex ⊢
    subst hlast
    have hfound : ∃ e, acts.find? (fun x => keyLtb k x.1) = some e := by
      rcases hex with ⟨e0, he0, hk0⟩
      rcases hfind : acts.find? (fun x => keyLtb k x.1) with _ | e
      · rw [List.find?_eq_none] at hfind
        exact absurd (keyLtb_iff.mpr hk0) (hfind e0 he0)
      · exact ⟨e, hfind⟩
    obtain ⟨e, hfind⟩ := hfound
    obtain ⟨hmem, hke, hmin⟩ := find_gt_min hs hfind
    refine ⟨e, hmem, hke, hmin, ?_⟩
    rw [Action.next_some_cursor, hfind]
  · intro hcase hne
    simp only at hcase hne ⊢
    match hacts : acts, hs, hne with
    | a :: tl, hs, hne =>
      have hmin : ∀ x ∈ a :: tl, a.1 ≤ x.1 := head_min hs rfl
      refine ⟨a, List.mem_cons_self _ _, hmin, ?_⟩
      rcases hcase with hnone | ⟨k, hk, hall⟩
      · subst hnone
        rw [Action.next_none_cursor]
        rfl
      · subst hk
        have hfindnone : (a :: tl).find? (fun x => keyLtb k x.1) = none := by
          rw [List.find?_eq_none]
          intro x hx
          rw [keyLtb_iff]
          exact not_lt.mpr (hall x hx)
        rw [Action.next_some_cursor, hfindnone]
        rfl
  · intro hnil
    simp only at hnil
    subst hnil
    cases last0 with
    | none => rw [Action.next_none_cursor]; rfl
    | some k => rw [Action.next_some_cursor]; rfl

/-- Claim C3 witness: from cursor "a" the selector picks "c", the least
key above "a", and persists it. -/
theorem c3_next_selection_witness :
    ∃ e, e ∈ c3st.actions ∧ "a" < e.1 ∧
      (∀ x ∈ c3st.actions, "a" < x.1 → e.1 ≤ x.1) ∧
      Action.next c3st = (some (Action.ofEntry e), { c3st with last := some e.1 }) :=
  (c3_next_selection c3st
      (by simp [c3st, List.pairwise_cons, String.lt_iff_toList_lt]; decide)).1 "a" rfl
    ⟨("c", ("cc", 7, [])), by simp [c3st], by rw [String.lt_iff_toList_lt]; decide⟩

/-- Claim C8 witness: a coin of denom "x" against an Action for "d". -/
theorem c8_invalid_denom_iff_witness :
    (Action.execute ⟨"d", "c", 5, []⟩ ⟨"x", 10⟩ = .error "Invalid Denom") ↔ "x" ≠ "d" :=
  c8_invalid_denom_iff ⟨"d", "c", 5, []⟩ ⟨"x", 10⟩

lemma runCranks_succ (st : State) (n : Nat) :
    (runCranks st (n + 1)).2 =
      ((Action.next st).1.map Action.denom).toList ++ (runCranks (Action.next st).2 n).2 := rfl

lemma pairwise_get_lt {l : List Entry} (hs : l.Pairwise (fun a b => a.1 < b.1))
    {i j : Fin l.length} (hij : i < j) : (l.get i).1 < (l.get j).1 :=
  List.pairwise_iff_get.mp hs i j hij

lemma key_inj {l : List Entry} (hs : l.Pairwise (fun a b => a.1 < b.1))
    {i j : Fin l.length} (h : (l.get i).1 = (l.get j).1) : i = j := by
  by_contra hne
  rcases lt_or_gt_of_ne hne with hlt | hlt
  · exact absurd h (ne_of_lt (pairwise_get_lt hs hlt))
  · exact absurd h.symm (ne_of_lt (pairwise_get_lt hs hlt))

lemma find_succ {l : List Entry} (hs : l.Pairwise (fun a b => a.1 < b.1)) :
    ∀ (i : Nat) (hi : i + 1 < l.length),
      l.find? (fun e => keyLtb (l.get ⟨i, Nat.lt_of_succ_lt hi⟩).1 e.1) =
        some (l.get ⟨i + 1, hi⟩) := by
  induction l with
  | nil => intro i hi; simp at hi
  | cons a tl ih =>
    intro i hi
    rw [List.pairwise_cons] at hs
    match i with
    | 0 =>
      rw [@List.find?_cons_of_neg _ (fun e => keyLtb ((a :: tl).get ⟨0, _⟩).1 e.1) a tl
        (by rw [keyLtb_iff]; exact lt_irrefl _)]
      have hlen : 0 < tl.length := by simpa using Nat.lt_of_succ_lt_succ hi
      match tl, hlen, hs with
      | b :: tl2, _, hs =>
        rw [@List.find?_cons_of_pos _
          (fun e => keyLtb ((a :: b :: tl2).get ⟨0, _⟩).1 e.1) b tl2
          (keyLtb_iff.mpr (hs.1 b (List.mem_cons_self _ _)))]
        rfl
    | j + 1 =>
      have hmem : tl.get ⟨j, Nat.lt_of_succ_lt (Nat.lt_of_succ_lt_succ hi)⟩ ∈ tl :=
        List.get_mem tl j _
      have hka : a.1 < ((a :: tl).get ⟨j + 1, Nat.lt_of_succ_lt hi⟩).1 := hs.1 _ hmem
      rw [@List.find?_cons_of_neg _
        (fun e => keyLtb ((a :: tl).get ⟨j + 1, _⟩).1 e.1) a tl
        (by rw [keyLtb_iff]; exact lt_asymm hka)]
      exact ih hs.2 j (Nat.lt_of_succ_lt_succ hi)

lemma find_wrap_none {l : List Entry} (hs : l.Pairwise (fun a b => a.1 < b.1))
    (i : Nat) (hi : i < l.length) (hlast : i + 1 = l.length) :
    l.find? (fun e => keyLtb (l.get ⟨i, hi⟩).1 e.1) = none := by
  rw [List.find?_eq_none]
  intro x hx
  rw [keyLtb_iff]
  obtain ⟨j, hj⟩ := List.mem_iff_get.mp hx
  subst hj
  rcases Nat.lt_or_ge j.1 i with hlt | hge
  · exact lt_asymm (pairwise_get_lt hs (show j < ⟨i, hi⟩ from hlt))
  · have : j.1 = i := by omega
    have hji : j = ⟨i, hi⟩ := Fin.ext this
    rw [hji]
    exact lt_irrefl _

lemma next_cyclic (cfg : Config) (l : List Entry)
    (hs : l.Pairwise (fun a b => a.1 < b.1)) (hK : 0 < l.length)
    (i : Nat) (hi : i < l.length) :
    Action.next ⟨cfg, some ((l.get ⟨i, hi⟩).1), l⟩ =
      (some (Action.ofEntry (l.get ⟨(i + 1) % l.length, Nat.mod_lt _ hK⟩)),
       ⟨cfg, some ((l.get ⟨(i + 1) % l.length, Nat.mod_lt _ hK⟩).1), l⟩) := by
  rcases Nat.lt_or_ge (i + 1) l.length with hlt | hge
  · have hmod : (i + 1) % l.length = i + 1 := Nat.mod_eq_of_lt hlt
    rw [Action.next_some_cursor, find_succ hs i hlt]
    simp only [hmod]
  · have heq : i + 1 = l.length := by omega
    have hmod : (i + 1) % l.length = 0 := by rw [heq, Nat.mod_self]
    rw [Action.next_some_cursor, find_wrap_none hs i hi heq]
    match l, hi, hmod with
    | a :: tl, _, hmod => simp only [hmod]; rfl

lemma next_selects_index (cfg : Config) (l : List Entry) (hne : l ≠ [])
    (last0 : Option String) :
    ∃ i : Fin l.length,
      Action.next ⟨cfg, last0, l⟩ =
        (some (Action.ofEntry (l.get i)), ⟨cfg, some ((l.get i).1), l⟩) := by
  cases last0 with
  | none =>
    match l, hne with
    | a :: tl, _ =>
      refine ⟨⟨0, by simp⟩, ?_⟩
      rw [Action.next_none_cursor]
      rfl
  | some k =>
    rcases hfind : l.find? (fun e => keyLtb k e.1) with _ | e
    · match l, hne, hfind with
      | a :: tl, _, hfind =>
        refine ⟨⟨0, by simp⟩, ?_⟩
        rw [Action.next_some_cursor, hfind]
        rfl
    · obtain ⟨j, hj⟩ := List.mem_iff_get.mp (List.mem_of_find?_eq_some hfind)
      refine ⟨j, ?_⟩
      rw [Action.next_some_cursor, hfind, ← hj]

lemma runCranks_cyclic (cfg : Config) (l : List Entry)
    (hs : l.Pairwise (fun a b => a.1 < b.1)) (hK : 0 < l.length) :
    ∀ (n m : Nat),
      (runCranks ⟨cfg, some ((l.get ⟨m % l.length, Nat.mod_lt _ hK⟩).1), l⟩ n).2 =
        (List.range n).map
          (fun t => (l.get ⟨(m + 1 + t) % l.length, Nat.mod_lt _ hK⟩).1) := by
  intro n
  induction n with
  | zero => intro m; simp [runCranks]
  | succ n ih =>
    intro m
    have hstep := next_cyclic cfg l hs hK (m % l.length) (Nat.mod_lt _ hK)
    have hmm : (m % l.length + 1) % l.length = (m + 1) % l.length := Nat.mod_add_mod m _ 1
    rw [runCranks_succ, hstep]
    simp only [hmm, Option.map_some', Option.toList_some]
    rw [ih (m + 1)]
    rw [List.range_succ_eq_map, List.map_cons, List.map_map, List.singleton_append]
    congr 1
    apply List.map_congr_left
    intro t _
    show (l.get ⟨(m + 1 + 1 + t) % l.length, Nat.mod_lt _ hK⟩).1
      = (l.get ⟨(m + 1 + (t + 1)) % l.length, Nat.mod_lt _ hK⟩).1
    exact congrArg (fun z => (l.get z).1)
      (Fin.ext (congrArg (· % l.length) (by omega)))

lemma runCranks_from_start (cfg : Config) (l : List Entry)
    (hs : l.Pairwise (fun a b => a.1 < b.1)) (hne : l ≠ [])
    (last0 : Option String) (n : Nat) :
    ∃ i0 : Fin l.length,
      (runCranks ⟨cfg, last0, l⟩ n).2 =
        (List.range n).map
          (fun t => (l.get ⟨(i0.1 + t) % l.length,
            Nat.mod_lt _ (List.length_pos.mpr hne)⟩).1) := by
  have hK : 0 < l.length := List.length_pos.mpr hne
  cases n with
  | zero => exact ⟨⟨0, hK⟩, by simp [runCranks]⟩
  | succ n =>
    obtain ⟨i0, hstep⟩ := next_selects_index cfg l hne last0
    refine ⟨i0, ?_⟩
    rw [runCranks_succ, hstep]
    have hmod : i0.1 % l.length = i0.1 := Nat.mod_eq_of_lt i0.2
    have hcyc := runCranks_cyclic cfg l hs hK n i0.1
    simp only [hmod, Fin.eta] at hcyc
    rw [hcyc]
    simp only [Option.map_some', Option.toList_some]
    rw [List.range_succ_eq_map, List.map_cons, List.map_map, List.singleton_append]
    congr 1
    · show (l.get i0).1 = (l.get ⟨(i0.1 + 0) % l.length, Nat.mod_lt _ hK⟩).1
      exact congrArg (fun z => (l.get z).1)
        (Fin.ext (by simp [hmod]))
    · apply List.map_congr_left
      intro t _
      show (l.get ⟨(i0.1 + 1 + t) % l.length, Nat.mod_lt _ hK⟩).1
        = (l.get ⟨(i0.1 + (t + 1)) % l.length, Nat.mod_lt _ hK⟩).1
      exact congrArg (fun z => (l.get z).1)
        (Fin.ext (congrArg (· % l.length) (by omega)))

lemma count_map_range (f : Nat → String) (key : String) (p : Nat → Bool)
    (hp : ∀ t, (f t == key) = p t) :
    ∀ N, ((List.range N).map f).count key = (List.range N).countP p := by
  intro N
  induction N with
  | zero => rfl
  | succ N ih =>
    rw [List.range_succ, List.map_append, List.count_append, List.countP_append, ih]
    have h1 : ([f N].count key) = if p N then 1 else 0 := by
      rw [← hp N]
      by_cases h : f N == key <;> simp [List.count_cons, h]
    have h2 : (List.countP p [N]) = if p N then 1 else 0 := by
      by_cases h : p N <;> simp [List.countP_cons, h]
    rw [show List.map f [N] = [f N] from rfl, h1, h2]

lemma count_selected (l : List Entry) (hs : l.Pairwise (fun a b => a.1 < b.1))
    (hK : 0 < l.length) (i0 N : Nat) (j : Fin l.length) :
    ((List.range N).map
        (fun t => (l.get ⟨(i0 + t) % l.length, Nat.mod_lt _ hK⟩).1)).count ((l.get j).1) =
      (List.range N).countP (fun t => decide ((i0 + t) % l.length = j.1)) := by
  apply count_map_range
  intro t
  by_cases h : (i0 + t) % l.length = j.1
  · have hfin : (⟨(i0 + t) % l.length, Nat.mod_lt _ hK⟩ : Fin l.length) = j := Fin.ext h
    rw [hfin]
    simp [h]
  · have hkne : (l.get ⟨(i0 + t) % l.length, Nat.mod_lt _ hK⟩).1 ≠ (l.get j).1 :=
      fun hkeq => h (congrArg Fin.val (key_inj hs hkeq))
    rw [decide_eq_false h]
    exact beq_eq_false_iff_ne.mpr hkne

lemma countP_mod (K d : Nat) (hK : 0 < K) (hd : d < K) :
    ∀ N, (List.range N).countP (fun t => decide (t % K = d)) =
      N / K + if d < N % K then 1 else 0 := by
  intro N
  induction N with
  | zero => simp
  | succ N ih =>
    rw [List.range_succ, List.countP_append, ih]
    have hsingle : (List.countP (fun t => decide (t % K = d)) [N]) =
        if N % K = d then 1 else 0 := by
      by_cases h : N % K = d <;> simp [List.countP_cons, h]
    rw [hsingle]
    have hq : K * (N / K) + N % K = N := Nat.div_add_mod N K
    have hrlt : N % K < K := Nat.mod_lt _ hK
    rcases Nat.lt_or_ge (N % K + 1) K with hlt | hge
    · have hN1 : N + 1 = K * (N / K) + (N % K + 1) := by omega
      have hdiv : (N + 1) / K = N / K := by
        rw [hN1, Nat.mul_add_div hK, Nat.div_eq_of_lt hlt, Nat.add_zero]
      have hmod : (N + 1) % K = N % K + 1 := by
        rw [hN1, Nat.mul_add_mod, Nat.mod_eq_of_lt hlt]
      rw [hdiv, hmod]
      split_ifs <;> omega
    · have heq : N % K + 1 = K := by omega
      have hKq : K * (N / K + 1) = K * (N / K) + K := Nat.mul_succ K (N / K)
      have hN1 : N + 1 = K * (N / K + 1) := by omega
      have hdiv : (N + 1) / K = N / K + 1 := by
        rw [hN1, Nat.mul_div_cancel_left _ hK]
      have hmod : (N + 1) % K = 0 := by
        rw [hN1]
        exact Nat.mul_mod_right K _
      rw [hdiv, hmod]
      split_ifs <;> omega

lemma mod_shift_iff (K i0 j : Nat) (hK : 0 < K) (hj : j < K) (t : Nat) :
    (i0 + t) % K = j ↔ t % K = (j + (K - i0 % K)) % K := by
  have hdlt : (j + (K - i0 % K)) % K < K := Nat.mod_lt _ hK
  have hi0 : i0 % K + (K - i0 % K) = K :=
    Nat.add_sub_cancel' (le_of_lt (Nat.mod_lt _ hK))
  have hbase : (i0 + (j + (K - i0 % K)) % K) % K = j := by
    have h1 : (i0 + (j + (K - i0 % K)) % K) % K = (i0 + (j + (K - i0 % K))) % K :=
      Nat.ModEq.add_left i0 (Nat.mod_modEq _ _)
    rw [h1]
    have hq : K * (i0 / K) + i0 % K = i0 := Nat.div_add_mod i0 K
    have h2 : i0 + (j + (K - i0 % K)) = j + K * (i0 / K + 1) := by
      have h3 : K * (i0 / K + 1) = K * (i0 / K) + K := Nat.mul_succ K _
      omega
    rw [h2, Nat.add_mul_mod_self_left]
    exact Nat.mod_eq_of_lt hj
  constructor
  · intro h
    have hmods : (i0 + t) % K = (i0 + (j + (K - i0 % K)) % K) % K := by rw [h, hbase]
    have ht : t % K = ((j + (K - i0 % K)) % K) % K := Nat.ModEq.add_left_cancel' i0 hmods
    rw [ht]
    exact Nat.mod_eq_of_lt hdlt
  · intro h
    have ht : t % K = ((j + (K - i0 % K)) % K) % K := by
      rw [h]
      exact (Nat.mod_eq_of_lt hdlt).symm
    have hmods : (i0 + t) % K = (i0 + (j + (K - i0 % K)) % K) % K :=
      Nat.ModEq.add_left i0 ht
    rw [hmods, hbase]

lemma count_mod_eq_floor_or_ceil (K : Nat) (hK : 0 < K) (d : Nat) (hd : d < K) (N : Nat) :
    (List.range N).countP (fun t => decide (t % K = d)) = N / K ∨
    (List.range N).countP (fun t => decide (t % K = d)) = (N + K - 1) / K := by
  rw [countP_mod K d hK hd N]
  by_cases h : d < N % K
  · right
    rw [if_pos h]
    have hq : K * (N / K) + N % K = N := Nat.div_add_mod N K
    have hKq : K * (N / K + 1) = K * (N / K) + K := Nat.mul_succ K (N / K)
    have h2 : N + K - 1 = K * (N / K + 1) + (N % K - 1) := by omega
    have hrK : N % K - 1 < K := by
      have := Nat.mod_lt N hK
      omega
    rw [h2, Nat.mul_add_div hK, Nat.div_eq_of_lt hrK]
  · left
    rw [if_neg h]
    exact Nat.add_zero _

/-- Claim C4: over a fixed sorted non-empty ledger of K actions, N bare
`Action::next` cranks from any starting cursor state select, in order,
the keys at indices `(i0 + t) mod K` for `t = 0, …, N-1` and some start
index `i0` — i.e. the denoms are visited in ascending-key cyclic order —
so every configured denom is selected exactly `⌊N/K⌋` or `⌈N/K⌉`
(`= (N+K-1)/K`) times. -/
theorem c4_round_robin (st : State) (N : Nat)
    (hs : st.actions.Pairwise (fun a b => a.1 < b.1)) (hne : st.actions ≠ []) :
    ∃ i0, i0 < st.actions.length ∧
      (runCranks st N).2 =
        (List.range N).map
          (fun t => (st.actions.get ⟨(i0 + t) % st.actions.length,
            Nat.mod_lt _ (List.length_pos.mpr hne)⟩).1) ∧
      ∀ j : Fin st.actions.length,
        ((runCranks st N).2.count ((st.actions.get j).1) = N / st.actions.length ∨
         (runCranks st N).2.count ((st.actions.get j).1) =
           (N + st.actions.length - 1) / st.actions.length) := by
  obtain ⟨cfg, last0, acts⟩ := st
  simp only at hs hne ⊢
  have hK : 0 < acts.length := List.length_pos.mpr hne
  obtain ⟨i0, htraj⟩ := runCranks_from_start cfg acts hs hne last0 N
  refine ⟨i0.1, i0.2, htraj, ?_⟩
  intro j
  rw [htraj, count_selected acts hs (List.length_pos.mpr hne) i0.1 N j]
  have hpred : (fun t => decide ((i0.1 + t) % acts.length = j.1)) =
      (fun t => decide (t % acts.length = (j.1 + (acts.length - i0.1 % acts.length)) % acts.length)) := by
    funext t
    exact decide_eq_decide.mpr (mod_shift_iff acts.length i0.1 j.1 hK j.2 t)
  rw [hpred]
  exact count_mod_eq_floor_or_ceil acts.length hK _ (Nat.mod_lt _ hK) N

/-- Claim C4 witness: two actions "a", "b", cursor absent, three cranks:
the selections are a, b, a — counts 2 = ⌈3/2⌉ and 1 = ⌊3/2⌋. -/
theorem c4_round_robin_witness :
    ∃ i0, i0 < ([(("a", ("ca", 1, [])) : Entry), ("b", ("cb", 2, []))] : List Entry).length ∧
      (runCranks ⟨⟨"o", "e", [], []⟩, none,
          [(("a", ("ca", 1, [])) : Entry), ("b", ("cb", 2, []))]⟩ 3).2 =
        (List.range 3).map
          (fun t => (([(("a", ("ca", 1, [])) : Entry), ("b", ("cb", 2, []))] : List Entry).get
            ⟨(i0 + t) % 2, Nat.mod_lt _ (by decide)⟩).1) ∧
      ∀ j : Fin ([(("a", ("ca", 1, [])) : Entry), ("b", ("cb", 2, []))] : List Entry).length,
        ((runCranks ⟨⟨"o", "e", [], []⟩, none,
            [(("a", ("ca", 1, [])) : Entry), ("b", ("cb", 2, []))]⟩ 3).2.count
            ((([(("a", ("ca", 1, [])) : Entry), ("b", ("cb", 2, []))] : List Entry).get j).1) = 3 / 2 ∨
         (runCranks ⟨⟨"o", "e", [], []⟩, none,
            [(("a", ("ca", 1, [])) : Entry), ("b", ("cb", 2, []))]⟩ 3).2.count
            ((([(("a", ("ca", 1, [])) : Entry), ("b", ("cb", 2, []))] : List Entry).get j).1) = (3 + 2 - 1) / 2) :=
  c4_round_robin ⟨⟨"o", "e", [], []⟩, none, [("a", ("ca", 1, [])), ("b", ("cb", 2, []))]⟩ 3
    (by simp [List.pairwise_cons, String.lt_iff_toList_lt]; decide) (by decide)

/-- Claim C6 counterexample: with the ledger containing only A, B and C
as the claim states, cranks 1-3 behave as described, but crank 4 wraps
back to A (cursor `token-a`, no event) instead of selecting D — D is not
in the stated ledger, so "crank 4 selects D" is false. -/
theorem c6_counterexample :
    c6crank ⟨c6Cfg, none, c6Acts3⟩ =
      .ok (⟨c6Cfg, some "token-a", c6Acts3⟩, ⟨[], [], []⟩) ∧
    c6crank ⟨c6Cfg, some "token-a", c6Acts3⟩ =
      .ok (⟨c6Cfg, some "token-b", c6Acts3⟩,
        ⟨[("revenue/run", [("denom", "token-b")])], [],
         [(0, .wasmExecute "contract-b" [] [(1000, "token-b")])]⟩) ∧
    c6crank ⟨c6Cfg, some "token-b", c6Acts3⟩ =
      .ok (⟨c6Cfg, some "token-c", c6Acts3⟩,
        ⟨[("revenue/run", [("denom", "token-c")])], [],
         [(0, .wasmExecute "contract-c" [] [(100, "token-c")])]⟩) ∧
    c6crank ⟨c6Cfg, some "token-c", c6Acts3⟩ =
      .ok (⟨c6Cfg, some "token-a", c6Acts3⟩, ⟨[], [], []⟩) ∧
    ("token-a" : String) ≠ "token-d" := by
  refine ⟨?_, ?_, ?_, ?_, by decide⟩ <;> rfl

/-- Claim C6 (amended): with the ledger also containing D and E
(unbounded), as in the repository's cranking test, the six cranks from
an absent cursor behave exactly as described: crank 1 selects A (inert,
amount 0 — the cursor still advances to A and no event is emitted);
crank 2 selects B (event, operation funded with 1000); crank 3 selects C
(capped at 100); crank 4 selects D; crank 5 selects E; crank 6 wraps
back to A (inert again, no event). -/
theorem c6_amended :
    c6crank ⟨c6Cfg, none, c6Acts5⟩ =
      .ok (⟨c6Cfg, some "token-a", c6Acts5⟩, ⟨[], [], []⟩) ∧
    c6crank ⟨c6Cfg, some "token-a", c6Acts5⟩ =
      .ok (⟨c6Cfg, some "token-b", c6Acts5⟩,
        ⟨[("revenue/run", [("denom", "token-b")])], [],
         [(0, .wasmExecute "contract-b" [] [(1000, "token-b")])]⟩) ∧
    c6crank ⟨c6Cfg, some "token-b", c6Acts5⟩ =
      .ok (⟨c6Cfg, some "token-c", c6Acts5⟩,
        ⟨[("revenue/run", [("denom", "token-c")])], [],
         [(0, .wasmExecute "contract-c" [] [(100, "token-c")])]⟩) ∧
    c6crank ⟨c6Cfg, some "token-c", c6Acts5⟩ =
      .ok (⟨c6Cfg, some "token-d", c6Acts5⟩,
        ⟨[("revenue/run", [("denom", "token-d")])], [],
         [(0, .wasmExecute "contract-d" [] [(1000, "token-d")])]⟩) ∧
    c6crank ⟨c6Cfg, some "token-d", c6Acts5⟩ =
      .ok (⟨c6Cfg, some "token-e", c6Acts5⟩,
        ⟨[("revenue/run", [("denom", "token-e")])], [],
         [(0, .wasmExecute "contract-e" [] [(1000, "token-e")])]⟩) ∧
    c6crank ⟨c6Cfg, some "token-e", c6Acts5⟩ =
      .ok (⟨c6Cfg, some "token-a", c6Acts5⟩, ⟨[], [], []⟩) := by
  refine ⟨?_, ?_, ?_, ?_, ?_, ?_⟩ <;> rfl

end RevConv
